import Mathlib

/-!
Shallow embedding, over exact rationals and integers, of the sleep-spindle
detection pipeline of src/yasa/main.py (functions _corr, _rms helpers,
moving_transform, _events_distance_fill, _index_to_events, get_bool_vector,
spindles_detect), together with theorems settling the specification claims.
Floating-point arrays are modelled as lists of rationals; numpy integer
truncation and arange are embedded explicitly; a float NaN arising from a
zero denominator is modelled by tracking when the denominator vanishes.
-/

set_option maxHeartbeats 1000000

namespace Yasa

/-- Truncation toward zero: the semantics of numpy astype(int) on a finite value. -/
def truncZ (q : ℚ) : ℤ := if q < 0 then ⌈q⌉ else ⌊q⌋

/-- Element count of numpy arange(start, stop, step) for a positive step:
ceil((stop - start) / step), and zero when stop ≤ start. -/
def arangeLen (start stop step : ℚ) : ℕ := (max 0 ⌈(stop - start) / step⌉).toNat

/-- Embeds numpy arange(start, stop, step): the list start, start + step, ...
of length arangeLen (exact rational arithmetic). -/
def arange (start stop step : ℚ) : List ℚ :=
  (List.range (arangeLen start stop step)).map (fun k : ℕ => start + (k : ℚ) * step)

/-- Embeds lines 381-383 of src/yasa/main.py:
trans = 1 if freq_sp[1] - freq_sp[0] > 3 else 0, and the second bandpass is
filter_data(data, sf, freq_sp[0] + trans, freq_sp[1] - trans).
sigmaFilterBand returns the (low, high) cutoff pair actually passed to that
second (broadband-to-sigma) bandpass. -/
def sigmaFilterBand (freqSp : ℚ × ℚ) : ℚ × ℚ :=
  let trans : ℚ := if 3 < freqSp.2 - freqSp.1 then 1 else 0
  (freqSp.1 + trans, freqSp.2 - trans)

/-- Embeds line 398 of src/yasa/main.py, mms[mms <= 0] = 0.000000001, acting on
one entry of the squared moving-RMS array: entries ≤ 0 are replaced by 1e-9,
all other entries are kept unchanged. -/
def mmsFloor (m : ℚ) : ℚ := if m ≤ 0 then 1 / 10 ^ 9 else m

/-- Embeds line 399 of src/yasa/main.py, abs_pow_log = np.log10(mms), applied
after the in-place flooring modelled by mmsFloor. -/
noncomputable def absPowLog (m : ℚ) : ℝ := Real.logb 10 ((mmsFloor m : ℚ) : ℝ)

/-- Mean of a list of rationals: x.mean() inside _corr (line 24 of
src/yasa/main.py). Empty input gives division by zero, i.e. 0 in ℚ. -/
def listMean (l : List ℚ) : ℚ := l.sum / l.length

/-- Sum of squared deviations from the mean: the quantity (xm ** 2).sum()
appearing under each square root of r_den in _corr (lines 24-27 of
src/yasa/main.py). -/
def ssd (l : List ℚ) : ℚ := (l.map (fun v => (v - listMean l) ^ 2)).sum

/-- Finiteness of the float result of _corr (lines 21-28 of src/yasa/main.py).
_corr returns r_num / r_den unconditionally, with
r_den = sqrt((xm**2).sum()) * sqrt((ym**2).sum()); since both factors are
square roots of nonnegative sums, r_den vanishes exactly when ssd x = 0 or
ssd y = 0, and the float division then yields a non-finite value (NaN).
corrFinite x y decides whether the _corr result is a finite float. -/
def corrFinite (x y : List ℚ) : Bool := !(ssd x == 0 || ssd y == 0)

/-- Lookup of a key in the thresh dict, modelled as an association list; a
none result models a Python KeyError on subscripting. -/
def threshLookup (d : List (String × ℚ)) (k : String) : Option ℚ :=
  (d.find? (fun p => p.1 == k)).map (fun p => p.2)

/-- Embeds the execution order of spindles_detect (src/yasa/main.py lines
362-413) up to the criterion comparisons: the asserts on freq_sp and
freq_broad run first (lines 364-365); then the array computations, in program
order: resample when sf ≥ 200 (368-373), broadband bandpass (376), sigma
bandpass (382), STFT relative power (386-388), moving correlation (391),
moving RMS (393), squared-RMS log power (397-399), Hilbert phase (402-406);
only then are the four thresh dict keys read, in the order abs_pow, rel_pow,
corr, rms (lines 409-412), where a missing key raises KeyError. Returns the
list of array-computation stages performed, paired with the error raised, if
any. -/
def spindlesDetectStages (sf : ℚ) (freqSp freqBroad : ℚ × ℚ)
    (thresh : List (String × ℚ)) : List String × Option String :=
  if freqSp.1 < freqSp.2 then
    if freqBroad.1 < freqBroad.2 then
      let comps := (if 200 ≤ sf then ["resample"] else []) ++
        ["filter_broad", "filter_sigma", "stft_power", "moving_corr",
         "moving_rms", "abs_pow_log", "hilbert"]
      match threshLookup thresh "abs_pow" with
      | none => (comps, some "KeyError abs_pow")
      | some _ =>
        match threshLookup thresh "rel_pow" with
        | none => (comps, some "KeyError rel_pow")
        | some _ =>
          match threshLookup thresh "corr" with
          | none => (comps, some "KeyError corr")
          | some _ =>
            match threshLookup thresh "rms" with
            | none => (comps, some "KeyError rms")
            | some _ => (comps, none)
    else ([], some "AssertionError")
  else ([], some "AssertionError")

/-- Embeds one iteration of the fill comprehension of _events_distance_fill
(lines 239-249 of src/yasa/main.py) for the consecutive index pair (a, b):
position j is selected (is in bad) when the difference b - a is > 1 and, as a
float, < min_distance = min_distance_ms / 1000 * sf; the gap is then filled
with np.arange(a + 1, b), the integers strictly between a and b. Otherwise the
pair contributes nothing. -/
def gapFill (minDistance : ℚ) (a b : ℤ) : List ℤ :=
  if 1 < b - a ∧ ((b - a : ℤ) : ℚ) < minDistance then
    (List.range (b - a - 1).toNat).map (fun k : ℕ => a + 1 + (k : ℤ))
  else []

/-- The concatenation np.hstack of all gap fills of _events_distance_fill,
taken over consecutive pairs of the index array (np.diff pairs). -/
def distanceFillList (index : List ℤ) (minDistance : ℚ) : List ℤ :=
  (index.zip index.tail).flatMap (fun p => gapFill minDistance p.1 p.2)

/-- Embeds _events_distance_fill (lines 217-253 of src/yasa/main.py):
min_distance = min_distance_ms / 1000 * sf; when at least one gap qualifies
(fill nonempty, i.e. len(bad) > 0), the function returns
np.sort(np.append(index, fill)); otherwise it returns index unchanged. -/
def eventsDistanceFill (index : List ℤ) (minDistanceMs sf : ℚ) : List ℤ :=
  if distanceFillList index (minDistanceMs / 1000 * sf) = [] then index
  else List.mergeSort (index ++ distanceFillList index (minDistanceMs / 1000 * sf))

/-- Embeds line 422 of src/yasa/main.py,
where_sp = np.where(idx_sum >= 3)[0]: the sample indices whose criterion vote
count is at least 3, in increasing order. -/
def whereSp (votes : List ℕ) : List ℤ :=
  ((List.range votes.length).filter (fun i => 3 ≤ votes.getD i 0)).map
    (fun i : ℕ => (i : ℤ))

/-- Embeds lines 429-431 of src/yasa/main.py: the distance merge
_events_distance_fill is applied to where_sp only when min_distance is not
None and strictly positive (a None min_distance is modelled like a
nonpositive one: both skip the merge). -/
def mergedSp (votes : List ℕ) (minDistanceMs sf : ℚ) : List ℤ :=
  if 0 < minDistanceMs then eventsDistanceFill (whereSp votes) minDistanceMs sf
  else whereSp votes

/-- Embeds line 434 of src/yasa/main.py,
sp = np.split(where_sp, np.where(np.diff(where_sp) != 1)[0] + 1): the array is
split into maximal segments in which each element is the predecessor plus 1. -/
def splitRuns : List ℤ → List (List ℤ)
  | [] => []
  | x :: xs =>
    match splitRuns xs with
    | [] => [[x]]
    | [] :: rs => [x] :: [] :: rs
    | (y :: r) :: rs =>
      if y = x + 1 then (x :: y :: r) :: rs else [x] :: (y :: r) :: rs

/-- Start index k[0] of a run (line 437 of src/yasa/main.py). -/
def runStart (r : List ℤ) : ℤ := r.headD 0

/-- End index k[-1] of a run (line 437 of src/yasa/main.py). -/
def runEnd (r : List ℤ) : ℤ := r.getLastD 0

/-- Run start in seconds, sp_start = k[0] / sf (lines 437-438). -/
def runStartSec (sf : ℚ) (r : List ℤ) : ℚ := (runStart r : ℚ) / sf

/-- Run end in seconds, sp_end = k[-1] / sf (lines 437-438). -/
def runEndSec (sf : ℚ) (r : List ℤ) : ℚ := (runEnd r : ℚ) / sf

/-- Run duration in seconds, sp_dur = sp_end - sp_start (line 439). -/
def runDur (sf : ℚ) (r : List ℤ) : ℚ := runEndSec sf r - runStartSec sf r

/-- The Start, End, Duration columns of the event-table row built from one
run (lines 437-439 and 483-485 of src/yasa/main.py); the remaining feature
columns are outside the fragment the claims are about. -/
def runEvent (sf : ℚ) (r : List ℤ) : ℚ × ℚ × ℚ :=
  (runStartSec sf r, runEndSec sf r, runDur sf r)

/-- Embeds lines 434-442 and 495 of spindles_detect: the runs of the merged
index set are turned into (Start, End, Duration) rows, and the strict duration
filter good_dur = sp_dur > duration[0] and sp_dur < duration[1] selects the
rows kept in the returned table (DataFrame[good_dur]). -/
def goodDurRows (votes : List ℕ) (sf durMin durMax minDistanceMs : ℚ) :
    List (ℚ × ℚ × ℚ) :=
  ((splitRuns (mergedSp votes minDistanceMs sf)).map (runEvent sf)).filter
    (fun ev => decide (durMin < ev.2.2 ∧ ev.2.2 < durMax))

/-- Embeds lines 421-447 and the final line 495 of spindles_detect, restricted
to the Start/End/Duration columns of the returned rows: vote thresholding
(where_sp), the explicit None return when where_sp is empty (lines 424-427),
the optional distance merge (429-431), run segmentation (434), the strict
duration filter good_dur (441-442), the explicit None return when no run has
good duration (444-447), and the row selection DataFrame[good_dur] (495).
A None return of the Python code is modelled as none, a populated table as
some of the list of surviving (Start, End, Duration) rows (the feature
columns, computed only for surviving runs, are outside this fragment). -/
def detectEvents (votes : List ℕ) (sf durMin durMax minDistanceMs : ℚ) :
    Option (List (ℚ × ℚ × ℚ)) :=
  if whereSp votes = [] then none
  else if goodDurRows votes sf durMin durMax minDistanceMs = [] then none
  else some (goodDurRows votes sf durMin durMax minDistanceMs)

/-- Python slice x[b:e] for clipped integer bounds (b is nonnegative in every
use inside moving_transform after the beg[beg < 0] = 0 clip). -/
def pySlice (x : List ℚ) (b e : ℤ) : List ℚ := (x.drop b.toNat).take (e - b).toNat

/-- Embeds moving_transform (lines 51-141 of src/yasa/main.py) in the
non-interpolated case (interp = False), parametric in the window kernel func,
which embeds the numba kernel (_rms, _corr or _covar with its second slice)
applied to a window slice: step becomes 1/sf when 0; idx = arange(0, n/sf,
step); beg = (idx - window/2)*sf truncated to int and clipped below at 0;
end = (idx + window/2)*sf truncated to int and clipped above at n - 1;
t = (end + beg)/2/sf; out[i] = func(x[beg[i]:end[i]]). Returns (t, out). -/
def movingTransform (x : List ℚ) (sf window step : ℚ) (func : List ℚ → ℚ) :
    List ℚ × List ℚ :=
  let stepEff := if step = 0 then 1 / sf else step
  let halfdur := window / 2
  let n := x.length
  let last : ℤ := (n : ℤ) - 1
  let idx := arange 0 ((n : ℚ) / sf) stepEff
  let beg := idx.map (fun c => max 0 (truncZ ((c - halfdur) * sf)))
  let endv := idx.map (fun c => min last (truncZ ((c + halfdur) * sf)))
  let t := (beg.zip endv).map (fun p => ((p.2 + p.1 : ℤ) : ℚ) / 2 / sf)
  let out := (beg.zip endv).map (fun p => func (pySlice x p.1 p.2))
  (t, out)

/-- Embeds _index_to_events (lines 256-276 of src/yasa/main.py) as called by
get_bool_vector on rational (start, end) rows: the concatenation over rows of
np.arange(start, end + 1) with step 1 and float endpoints, followed by the
astype(int) truncation toward zero. -/
def indexToEvents (x : List (ℚ × ℚ)) : List ℤ :=
  (x.flatMap (fun p => arange p.1 (p.2 + 1) 1)).map truncZ

/-- Embeds get_bool_vector (lines 279-305 of src/yasa/main.py): the Start/End
columns (seconds) are multiplied by sf, expanded by indexToEvents, and the
resulting positions of a zero vector of the data length are set to 1 (repeated
writes overwrite earlier ones with the same value). An out-of-range index,
which would raise IndexError in numpy (an open question in the spec), is
ignored here; the theorems about this function assume in-range events. -/
def getBoolVector (n : ℕ) (sf : ℚ) (sp : List (ℚ × ℚ)) : List ℕ :=
  (List.range n).map
    (fun i : ℕ =>
      if (i : ℤ) ∈ indexToEvents (sp.map (fun p => (p.1 * sf, p.2 * sf))) then 1 else 0)

end Yasa

namespace Yasa

/-- C1, counterexample: with the default spindle band (11, 16), which is 5 Hz
wide (> 3 Hz), the second bandpass receives the narrowed band (12, 15), not
the widened band (11 - 1, 16 + 1) = (10, 17) stated by the claim. -/
theorem c1_counterexample :
    sigmaFilterBand (11, 16) = (12, 15) ∧ sigmaFilterBand (11, 16) ≠ (11 - 1, 16 + 1) := by
  constructor
  · norm_num [sigmaFilterBand]
  · norm_num [sigmaFilterBand]

/-- C1, amended: when the spindle band freq_sp is wider than 3 Hz, the second
bandpass (broadband to sigma) uses the band narrowed by 1 Hz on each side,
filtering from freq_sp[0] + 1 to freq_sp[1] - 1; when the band is 3 Hz wide or
less, the band is used unchanged. -/
theorem c1_sigma_band_adjustment (lo hi : ℚ) :
    (3 < hi - lo → sigmaFilterBand (lo, hi) = (lo + 1, hi - 1)) ∧
    (hi - lo ≤ 3 → sigmaFilterBand (lo, hi) = (lo, hi)) := by
  constructor
  · intro h
    simp [sigmaFilterBand, h]
  · intro h
    simp [sigmaFilterBand, not_lt.mpr h]

/-- C1, witness: the amended statement evaluated at the wide band (11, 16) and
at the narrow band (12, 14). -/
theorem c1_sigma_band_adjustment_witness :
    sigmaFilterBand (11, 16) = (11 + 1, 16 - 1) ∧ sigmaFilterBand (12, 14) = (12, 14) :=
  ⟨(c1_sigma_band_adjustment 11 16).1 (by norm_num),
   (c1_sigma_band_adjustment 12 14).2 (by norm_num)⟩

/-- C6, counterexample: a positive squared moving-RMS value of 1e-12, smaller
than 1e-9, is not floored (only values ≤ 0 are), so the stored abs_pow_log
value log10(1e-12) lies strictly below log10(1e-9), refuting the claim that
abs_pow_log is never below log10(1e-9). -/
theorem c6_counterexample :
    absPowLog (1 / 10 ^ 12) < Real.logb 10 (((1 / 10 ^ 9 : ℚ) : ℝ)) := by
  have h : mmsFloor (1 / 10 ^ 12) = 1 / 10 ^ 12 := by norm_num [mmsFloor]
  rw [absPowLog, h]
  have h10 : (1 : ℝ) < 10 := by norm_num
  apply Real.logb_lt_logb h10
  · push_cast
    norm_num
  · push_cast
    norm_num

/-- C6, amended: abs_pow_log equals log10 of the squared moving RMS with
values ≤ 0 (and only those) replaced by 1e-9: the argument of the logarithm is
always strictly positive (so the stored value is finite), a squared RMS ≤ 0
yields exactly log10(1e-9), and a squared RMS ≥ 1e-9 yields a value at least
log10(1e-9); but a positive squared RMS below 1e-9 is kept unchanged, so the
stored value can fall strictly below log10(1e-9). -/
theorem c6_abs_pow_floor (m : ℚ) :
    (0 : ℝ) < ((mmsFloor m : ℚ) : ℝ) ∧
    (m ≤ 0 → absPowLog m = Real.logb 10 (((1 / 10 ^ 9 : ℚ) : ℝ))) ∧
    (1 / 10 ^ 9 ≤ m → Real.logb 10 (((1 / 10 ^ 9 : ℚ) : ℝ)) ≤ absPowLog m) := by
  refine ⟨?_, ?_, ?_⟩
  · rcases le_or_lt m 0 with h | h
    · simp only [mmsFloor, if_pos h]
      norm_num
    · simp only [mmsFloor, if_neg (not_le.mpr h)]
      exact_mod_cast h
  · intro h
    rw [absPowLog, mmsFloor, if_pos h]
  · intro h
    have hm : ¬ m ≤ 0 := by
      intro hc
      nlinarith [hc, h]
    rw [absPowLog, mmsFloor, if_neg hm]
    apply Real.logb_le_logb_of_le (by norm_num : (1:ℝ) < 10) (by norm_num)
    exact_mod_cast h

/-- C6, witness: the amended statement evaluated at squared RMS 0 (floored to
1e-9) and at squared RMS 1 (above 1e-9). -/
theorem c6_abs_pow_floor_witness :
    absPowLog 0 = Real.logb 10 (((1 / 10 ^ 9 : ℚ) : ℝ)) ∧
    Real.logb 10 (((1 / 10 ^ 9 : ℚ) : ℝ)) ≤ absPowLog 1 :=
  ⟨(c6_abs_pow_floor 0).2.1 (by norm_num), (c6_abs_pow_floor 1).2.2 (by norm_num)⟩

/-- Sum of squared deviations of a nonempty constant list: the mean is the
constant, every deviation vanishes, so ssd is zero. -/
theorem ssd_const {l : List ℚ} {c : ℚ} (hne : l ≠ []) (hc : ∀ v ∈ l, v = c) :
    ssd l = 0 := by
  have hlen0 : l.length ≠ 0 := fun h => hne (List.eq_nil_of_length_eq_zero h)
  have hlen : (l.length : ℚ) ≠ 0 := Nat.cast_ne_zero.mpr hlen0
  have hmean : listMean l = c := by
    rw [listMean, List.sum_eq_card_nsmul l c hc, nsmul_eq_mul]
    field_simp
  apply List.sum_eq_zero
  intro v hv
  rcases List.mem_map.mp hv with ⟨w, hw, rfl⟩
  rw [hmean, hc w hw]
  ring

/-- C7, counterexample: over the constant window [1, 1, 1] (zero variance) the
denominator of _corr vanishes, so its result is a non-finite float rather than
a floored or guarded value, refuting the claim that the correlation over a
constant window is floored or guarded before the threshold comparison. -/
theorem c7_counterexample :
    corrFinite [1, 1, 1] [0, 1, 2] = false ∧ ∀ v ∈ [(1 : ℚ), 1, 1], v = 1 := by
  constructor
  · norm_num [corrFinite, ssd, listMean]
  · decide

/-- C7, amended: _corr contains no guard for the zero-variance case: for every
window pair in which either signal is constant (and nonempty), the
corresponding sum of squared deviations vanishes, hence the denominator
r_den = sqrt(ssd x) * sqrt(ssd y) is zero and the float result of _corr is
non-finite (NaN), not a floored or guarded value. -/
theorem c7_constant_window_not_finite (x y : List ℚ)
    (h : (x ≠ [] ∧ ∃ c, ∀ v ∈ x, v = c) ∨ (y ≠ [] ∧ ∃ c, ∀ v ∈ y, v = c)) :
    corrFinite x y = false := by
  rcases h with ⟨hne, c, hc⟩ | ⟨hne, c, hc⟩
  · simp [corrFinite, ssd_const hne hc]
  · simp [corrFinite, ssd_const hne hc]

/-- C7, witness: the amended statement evaluated with the constant window
[2, 2] on each side in turn, against the non-constant window [5, 7]. -/
theorem c7_constant_window_not_finite_witness :
    corrFinite [2, 2] [5, 7] = false ∧ corrFinite [5, 7] [2, 2] = false :=
  ⟨c7_constant_window_not_finite [2, 2] [5, 7] (Or.inl ⟨by decide, 2, by decide⟩),
   c7_constant_window_not_finite [5, 7] [2, 2] (Or.inr ⟨by decide, 2, by decide⟩)⟩

/-- C2, counterexample: a call with a thresh dict missing the abs_pow field
(and valid frequency bands, native 100 Hz rate) does fail, but only after all
array-computation stages (both filters, STFT, moving correlation, moving RMS,
log power, Hilbert) have been performed: the computation trace at the moment
of the KeyError is not empty, refuting the claim that the call fails before
any array computation. -/
theorem c2_counterexample :
    (spindlesDetectStages 100 (11, 16) (1 / 2, 30)
        [("rel_pow", 1 / 5), ("rms", 95), ("corr", 69 / 100)]).2.isSome = true ∧
    (spindlesDetectStages 100 (11, 16) (1 / 2, 30)
        [("rel_pow", 1 / 5), ("rms", 95), ("corr", 69 / 100)]).1 ≠ [] := by
  norm_num [spindlesDetectStages]
  decide

/-- C2, amended: a call whose thresh dict is missing at least one of the four
required fields (abs_pow, rel_pow, corr, rms), with valid frequency bands,
fails with a KeyError at the threshold-comparison stage, i.e. only after every
array computation (resampling when applicable, both bandpass filters, STFT,
moving correlation, moving RMS, log power, Hilbert phase) has been performed;
the missing field is not validated eagerly. -/
theorem c2_missing_thresh_key_fails_late (sf : ℚ) (freqSp freqBroad : ℚ × ℚ)
    (thresh : List (String × ℚ))
    (h1 : freqSp.1 < freqSp.2) (h2 : freqBroad.1 < freqBroad.2)
    (hmiss : ∃ k ∈ ["abs_pow", "rel_pow", "corr", "rms"], threshLookup thresh k = none) :
    (spindlesDetectStages sf freqSp freqBroad thresh).2.isSome = true ∧
    (spindlesDetectStages sf freqSp freqBroad thresh).1 =
      (if 200 ≤ sf then ["resample"] else []) ++
      ["filter_broad", "filter_sigma", "stft_power", "moving_corr",
       "moving_rms", "abs_pow_log", "hilbert"] := by
  simp only [spindlesDetectStages, if_pos h1, if_pos h2]
  rcases habs : threshLookup thresh "abs_pow" with _ | vabs
  · simp
  rcases hrel : threshLookup thresh "rel_pow" with _ | vrel
  · simp
  rcases hcorr : threshLookup thresh "corr" with _ | vcorr
  · simp
  rcases hrms : threshLookup thresh "rms" with _ | vrms
  · simp
  exfalso
  rcases hmiss with ⟨k, hk, hnone⟩
  simp only [List.mem_cons, List.mem_singleton, List.not_mem_nil, or_false] at hk
  rcases hk with rfl | rfl | rfl | rfl
  · rw [habs] at hnone
    exact Option.noConfusion hnone
  · rw [hrel] at hnone
    exact Option.noConfusion hnone
  · rw [hcorr] at hnone
    exact Option.noConfusion hnone
  · rw [hrms] at hnone
    exact Option.noConfusion hnone

/-- C2, witness: the amended statement evaluated at a concrete call missing
the rms field. -/
theorem c2_missing_thresh_key_fails_late_witness :
    (spindlesDetectStages 100 (11, 16) (1 / 2, 30)
        [("abs_pow", 5 / 4), ("rel_pow", 1 / 5), ("corr", 69 / 100)]).2.isSome = true ∧
    (spindlesDetectStages 100 (11, 16) (1 / 2, 30)
        [("abs_pow", 5 / 4), ("rel_pow", 1 / 5), ("corr", 69 / 100)]).1 =
      (if 200 ≤ (100 : ℚ) then ["resample"] else []) ++
      ["filter_broad", "filter_sigma", "stft_power", "moving_corr",
       "moving_rms", "abs_pow_log", "hilbert"] :=
  c2_missing_thresh_key_fails_late 100 (11, 16) (1 / 2, 30)
    [("abs_pow", 5 / 4), ("rel_pow", 1 / 5), ("corr", 69 / 100)]
    (by norm_num) (by norm_num) ⟨"rms", by decide, by decide⟩

/-- Membership in the fill of one consecutive pair: exactly the integers
strictly between a and b, provided the pair is a qualifying gap. -/
theorem mem_gapFill {md : ℚ} {a b v : ℤ} :
    v ∈ gapFill md a b ↔ 1 < b - a ∧ ((b - a : ℤ) : ℚ) < md ∧ a < v ∧ v < b := by
  unfold gapFill
  split
  case isTrue h =>
    constructor
    · intro hv
      rcases List.mem_map.mp hv with ⟨k, hk, rfl⟩
      rw [List.mem_range] at hk
      exact ⟨h.1, h.2, by omega, by omega⟩
    · rintro ⟨-, -, hav, hvb⟩
      exact List.mem_map.mpr
        ⟨(v - a - 1).toNat, List.mem_range.mpr (by omega), by omega⟩
  case isFalse h =>
    simp only [List.not_mem_nil, false_iff, not_and]
    intro h1 h2
    exact absurd ⟨h1, h2⟩ h

/-- Membership in the concatenated fill list, traced back to one consecutive
pair of the index array. -/
theorem mem_distanceFillList {index : List ℤ} {md : ℚ} {v : ℤ} :
    v ∈ distanceFillList index md ↔
      ∃ p ∈ index.zip index.tail, v ∈ gapFill md p.1 p.2 := by
  simp [distanceFillList]

/-- Membership in the result of _events_distance_fill: the original indices
together with the fill. -/
theorem mem_eventsDistanceFill {index : List ℤ} {mdMs sf : ℚ} {v : ℤ} :
    v ∈ eventsDistanceFill index mdMs sf ↔
      v ∈ index ∨ v ∈ distanceFillList index (mdMs / 1000 * sf) := by
  unfold eventsDistanceFill
  split
  case isTrue h => simp [h]
  case isFalse h => simp

/-- In a strictly sorted list, no element lies strictly between a consecutive
pair. -/
theorem adjacent_no_between : ∀ {l : List ℤ} {a b c : ℤ}, l.Pairwise (· < ·) →
    (a, b) ∈ l.zip l.tail → c ∈ l → a < c → c < b → False
  | [], _, _, _, _, hz, _, _, _ => by simp at hz
  | [_], _, _, _, _, hz, _, _, _ => by simp at hz
  | x :: y :: rest, a, b, c, hp, hz, hc, hac, hcb => by
    rw [List.tail_cons, List.zip_cons_cons, List.mem_cons] at hz
    rcases hz with heq | hz'
    · injection heq with hax hby
      rcases List.mem_cons.mp hc with hcx | hc'
      · omega
      rcases List.mem_cons.mp hc' with hcy | hc''
      · omega
      · have hyc : y < c :=
          (List.pairwise_cons.mp (List.pairwise_cons.mp hp).2).1 c hc''
        omega
    · rcases List.mem_cons.mp hc with hcx | hc'
      · have ha : a ∈ y :: rest := (List.of_mem_zip hz').1
        have hxa : x < a := (List.pairwise_cons.mp hp).1 a ha
        omega
      · exact adjacent_no_between (List.pairwise_cons.mp hp).2 hz' hc' hac hcb

/-- In a strictly sorted list, each element has at most one successor among
the consecutive pairs. -/
theorem adjacent_unique : ∀ {l : List ℤ} {a b b' : ℤ}, l.Pairwise (· < ·) →
    (a, b) ∈ l.zip l.tail → (a, b') ∈ l.zip l.tail → b = b'
  | [], _, _, _, _, hz, _ => by simp at hz
  | [_], _, _, _, _, hz, _ => by simp at hz
  | x :: y :: rest, a, b, b', hp, hz1, hz2 => by
    rw [List.tail_cons, List.zip_cons_cons, List.mem_cons] at hz1 hz2
    rcases hz1 with he1 | hz1' <;> rcases hz2 with he2 | hz2'
    · injection he1 with ha1 hb1
      injection he2 with ha2 hb2
      omega
    · injection he1 with ha1 hb1
      have ha : a ∈ y :: rest := (List.of_mem_zip hz2').1
      have hxa : x < a := (List.pairwise_cons.mp hp).1 a ha
      omega
    · injection he2 with ha2 hb2
      have ha : a ∈ y :: rest := (List.of_mem_zip hz1').1
      have hxa : x < a := (List.pairwise_cons.mp hp).1 a ha
      omega
    · exact adjacent_unique (List.pairwise_cons.mp hp).2 hz1' hz2'

/-- A sorted list whose minimum is m has head m. -/
theorem sorted_head?_of_min {l : List ℤ} {m : ℤ} (hs : l.Sorted (· ≤ ·))
    (hm : m ∈ l) (hmin : ∀ v ∈ l, m ≤ v) : l.head? = some m := by
  cases l with
  | nil => simp at hm
  | cons x xs =>
    have hxm : m ≤ x := hmin x (List.mem_cons_self x xs)
    have hmx : x ≤ m := by
      rcases List.mem_cons.mp hm with rfl | hmem
      · exact le_refl _
      · exact (List.pairwise_cons.mp hs).1 m hmem
    simp [le_antisymm hmx hxm]

/-- A sorted list whose maximum is m has last element m. -/
theorem sorted_getLast?_of_max : ∀ {l : List ℤ} {m : ℤ}, l.Sorted (· ≤ ·) →
    m ∈ l → (∀ v ∈ l, v ≤ m) → l.getLast? = some m
  | [], m, _, hm, _ => by simp at hm
  | [x], m, _, hm, _ => by
    have : m = x := by simpa using hm
    simp [this]
  | x :: y :: ys, m, hs, hm, hmax => by
    rw [List.getLast?_cons_cons]
    have hs' := (List.pairwise_cons.mp hs).2
    have hm' : m ∈ y :: ys := by
      rcases List.mem_cons.mp hm with rfl | hmem
      · have hxy : m ≤ y := (List.pairwise_cons.mp hs).1 y (by simp)
        have hyx : y ≤ m := hmax y (by simp)
        rw [← le_antisymm hyx hxy]
        simp
      · exact hmem
    exact sorted_getLast?_of_max hs' hm'
      (fun v hv => hmax v (List.mem_cons_of_mem x hv))

/-- The head of a strictly sorted list is its minimum. -/
theorem pairwise_head_le {x : ℤ} {xs : List ℤ} (hp : (x :: xs).Pairwise (· < ·)) :
    ∀ v ∈ x :: xs, x ≤ v := by
  intro v hv
  rcases List.mem_cons.mp hv with rfl | hv'
  · exact le_refl v
  · exact ((List.pairwise_cons.mp hp).1 v hv').le

/-- Every element of a sorted list is at most its last element. -/
theorem sorted_le_getLast : ∀ {l : List ℤ}, l.Sorted (· ≤ ·) →
    ∀ v ∈ l, ∀ m, l.getLast? = some m → v ≤ m
  | [], _, v, hv, _, _ => by simp at hv
  | [x], _, v, hv, m, hlast => by
    have hvx : v = x := by simpa using hv
    have hmx : m = x := by simpa using hlast.symm
    simp [hvx, hmx]
  | x :: y :: ys, hs, v, hv, m, hlast => by
    rw [List.getLast?_cons_cons] at hlast
    have hs' := (List.pairwise_cons.mp hs).2
    rcases List.mem_cons.mp hv with rfl | hv'
    · have hym : y ≤ m := sorted_le_getLast hs' y (by simp) m hlast
      have hvy : v ≤ y := (List.pairwise_cons.mp hs).1 y (by simp)
      exact hvy.trans hym
    · exact sorted_le_getLast hs' v hv' m hlast

/-- When every vote is below 3, where_sp is empty. -/
theorem whereSp_eq_nil {votes : List ℕ} (hv : ∀ v ∈ votes, v < 3) :
    whereSp votes = [] := by
  unfold whereSp
  rw [List.map_eq_nil_iff, List.filter_eq_nil_iff]
  intro i hi
  simp only [decide_eq_true_eq, not_le]
  rcases lt_or_ge i votes.length with hlen | hlen
  · rw [List.getD_eq_getElem?_getD, List.getElem?_eq_getElem hlen]
    exact hv _ (List.getElem_mem hlen)
  · rw [List.getD_eq_getElem?_getD, List.getElem?_eq_none hlen]
    norm_num

/-- C10: on a strictly sorted index array, _events_distance_fill returns a
sorted array that contains every input index; every element that is not an
input index lies strictly between some consecutive pair of input indices whose
difference is below the minimum-distance sample count min_distance_ms/1000*sf;
and the first and last elements are unchanged. -/
theorem c10_distance_fill_invariants (index : List ℤ) (mdMs sf : ℚ)
    (hp : index.Pairwise (· < ·)) :
    (eventsDistanceFill index mdMs sf).Sorted (· ≤ ·) ∧
    (∀ v ∈ index, v ∈ eventsDistanceFill index mdMs sf) ∧
    (∀ v ∈ eventsDistanceFill index mdMs sf, v ∉ index →
      ∃ p ∈ index.zip index.tail, p.1 < v ∧ v < p.2 ∧
        ((p.2 - p.1 : ℤ) : ℚ) < mdMs / 1000 * sf) ∧
    (eventsDistanceFill index mdMs sf).head? = index.head? ∧
    (eventsDistanceFill index mdMs sf).getLast? = index.getLast? := by
  refine ⟨?_, ?_, ?_, ?_, ?_⟩
  · unfold eventsDistanceFill
    split
    · exact hp.imp le_of_lt
    · exact List.sorted_mergeSort' _
  · intro v hv
    exact mem_eventsDistanceFill.mpr (Or.inl hv)
  · intro v hv hvn
    rcases mem_eventsDistanceFill.mp hv with h | h
    · exact absurd h hvn
    · rcases mem_distanceFillList.mp h with ⟨p, hpz, hg⟩
      rcases mem_gapFill.mp hg with ⟨-, h2, hav, hvb⟩
      exact ⟨p, hpz, hav, hvb, h2⟩
  · unfold eventsDistanceFill
    split
    · rfl
    case isFalse hne =>
      cases hidx : index with
      | nil =>
        subst hidx
        exact absurd rfl hne
      | cons x xs =>
        subst hidx
        rw [List.head?_cons]
        apply sorted_head?_of_min (List.sorted_mergeSort' _)
        · rw [List.mem_mergeSort]
          exact List.mem_append_left _ (List.mem_cons_self x xs)
        · intro v hv
          rw [List.mem_mergeSort, List.mem_append] at hv
          rcases hv with hv | hv
          · exact pairwise_head_le hp v hv
          · rcases mem_distanceFillList.mp hv with ⟨p, hpz, hg⟩
            rcases mem_gapFill.mp hg with ⟨-, -, hav, -⟩
            have hp1 : p.1 ∈ x :: xs := (List.of_mem_zip hpz).1
            exact (pairwise_head_le hp p.1 hp1).trans hav.le
  · unfold eventsDistanceFill
    split
    · rfl
    case isFalse hne =>
      have hne' : index ≠ [] := by
        rintro rfl
        exact hne rfl
      have hlast : index.getLast? = some (index.getLast hne') :=
        List.getLast?_eq_getLast index hne'
      rw [hlast]
      apply sorted_getLast?_of_max (List.sorted_mergeSort' _)
      · rw [List.mem_mergeSort]
        exact List.mem_append_left _ (List.getLast_mem hne')
      · intro v hv
        rw [List.mem_mergeSort, List.mem_append] at hv
        rcases hv with hv | hv
        · exact sorted_le_getLast (hp.imp le_of_lt) v hv _ hlast
        · rcases mem_distanceFillList.mp hv with ⟨p, hpz, hg⟩
          rcases mem_gapFill.mp hg with ⟨-, -, -, hvb⟩
          have hp2 : p.2 ∈ index := List.tail_subset index (List.of_mem_zip hpz).2
          exact hvb.le.trans (sorted_le_getLast (hp.imp le_of_lt) p.2 hp2 _ hlast)

/-- C10, witness: the invariants evaluated on the strictly sorted index array
[0, 2, 10] with min_distance_ms = 5000 and sf = 1. -/
theorem c10_distance_fill_invariants_witness :
    (eventsDistanceFill [0, 2, 10] 5000 1).Sorted (· ≤ ·) ∧
    (∀ v ∈ ([0, 2, 10] : List ℤ), v ∈ eventsDistanceFill [0, 2, 10] 5000 1) ∧
    (∀ v ∈ eventsDistanceFill [0, 2, 10] 5000 1, v ∉ ([0, 2, 10] : List ℤ) →
      ∃ p ∈ ([0, 2, 10] : List ℤ).zip ([0, 2, 10] : List ℤ).tail,
        p.1 < v ∧ v < p.2 ∧ ((p.2 - p.1 : ℤ) : ℚ) < 5000 / 1000 * 1) ∧
    (eventsDistanceFill [0, 2, 10] 5000 1).head? = ([0, 2, 10] : List ℤ).head? ∧
    (eventsDistanceFill [0, 2, 10] 5000 1).getLast? = ([0, 2, 10] : List ℤ).getLast? :=
  c10_distance_fill_invariants [0, 2, 10] 5000 1 (by decide)

/-- C5: on a strictly sorted index array, for a consecutive pair (a, b) with
b - a > 1, the merge fills every integer strictly between a and b exactly when
the pair distance b - a is, as a float, smaller than
min_distance = min_distance_ms/1000*sf (so two runs separated by less than
min_distance samples become one and runs separated by at least that stay
distinct); and a nonpositive min_distance disables merging entirely. -/
theorem c5_gap_merge_iff (index : List ℤ) (mdMs sf : ℚ) (a b : ℤ)
    (hp : index.Pairwise (· < ·)) (hab : (a, b) ∈ index.zip index.tail)
    (hgap : 1 < b - a) :
    ((∀ c : ℤ, a < c → c < b → c ∈ eventsDistanceFill index mdMs sf) ↔
      ((b - a : ℤ) : ℚ) < mdMs / 1000 * sf) ∧
    (∀ (votes : List ℕ) (mdMs' : ℚ), mdMs' ≤ 0 →
      mergedSp votes mdMs' sf = whereSp votes) := by
  constructor
  · constructor
    · intro hall
      have hc : a + 1 ∈ eventsDistanceFill index mdMs sf :=
        hall (a + 1) (by omega) (by omega)
      rcases mem_eventsDistanceFill.mp hc with hidx | hfill
      · exact (adjacent_no_between hp hab hidx (by omega) (by omega)).elim
      · rcases mem_distanceFillList.mp hfill with ⟨⟨p1, p2⟩, hpz, hg⟩
        rcases mem_gapFill.mp hg with ⟨-, h2, hav, hvb⟩
        rcases lt_trichotomy p1 a with hlt | heq | hgt
        · have haidx : a ∈ index := (List.of_mem_zip hab).1
          exact (adjacent_no_between hp hpz haidx hlt (by omega)).elim
        · subst heq
          have hb : p2 = b := adjacent_unique hp hpz hab
          subst hb
          exact h2
        · omega
    · intro hmd c hac hcb
      exact mem_eventsDistanceFill.mpr (Or.inr (mem_distanceFillList.mpr
        ⟨(a, b), hab, mem_gapFill.mpr ⟨hgap, hmd, hac, hcb⟩⟩))
  · intro votes mdMs' hmd
    unfold mergedSp
    rw [if_neg (not_lt.mpr hmd)]

/-- C5, witness: the merge criterion evaluated on the index array [0, 1, 5, 6]
(runs 0-1 and 5-6, gap distance 4) with min_distance_ms = 500 and sf = 2. -/
theorem c5_gap_merge_iff_witness :
    ((∀ c : ℤ, 1 < c → c < 5 → c ∈ eventsDistanceFill [0, 1, 5, 6] 500 2) ↔
      (((5 : ℤ) - 1 : ℤ) : ℚ) < 500 / 1000 * 2) ∧
    (∀ (votes : List ℕ) (mdMs' : ℚ), mdMs' ≤ 0 →
      mergedSp votes mdMs' 2 = whereSp votes) :=
  c5_gap_merge_iff [0, 1, 5, 6] 500 2 1 5 (by decide) (by decide) (by decide)

/-- C3: when no sample has a criterion vote of at least 3, or no run of the
merged index set has duration strictly between duration[0] and duration[1],
spindles_detect returns the explicit absent outcome None (modelled as none),
which is distinguishable from a populated table, and the embedded detection
tail is a total function, so no exception is raised in this case. -/
theorem c3_no_event_returns_none (votes : List ℕ) (sf durMin durMax mdMs : ℚ)
    (h : (∀ v ∈ votes, v < 3) ∨
      ∀ r ∈ splitRuns (mergedSp votes mdMs sf),
        ¬(durMin < runDur sf r ∧ runDur sf r < durMax)) :
    detectEvents votes sf durMin durMax mdMs = none := by
  unfold detectEvents
  rcases h with hv | hr
  · rw [if_pos (whereSp_eq_nil hv)]
  · have hfil : goodDurRows votes sf durMin durMax mdMs = [] := by
      unfold goodDurRows
      rw [List.filter_eq_nil_iff]
      intro ev hev
      rcases List.mem_map.mp hev with ⟨r, hr', rfl⟩
      simp only [decide_eq_true_eq]
      exact hr r hr'
    by_cases hw : whereSp votes = []
    · rw [if_pos hw]
    · rw [if_neg hw, if_pos hfil]

/-- C3, witness: a vote sequence that never reaches 3 yields the explicit none
outcome. -/
theorem c3_no_event_returns_none_witness :
    detectEvents [0, 1, 2, 0] 100 (3 / 10) (5 / 2) 500 = none :=
  c3_no_event_returns_none [0, 1, 2, 0] 100 (3 / 10) (5 / 2) 500
    (Or.inl (by decide))

/-- C4: when spindles_detect returns a populated table, every returned row has
duration strictly between duration[0] and duration[1]; a run of the merged
index set contributes a row exactly when its duration lies strictly inside the
bounds; and a run whose duration equals either bound exactly contributes no
row. -/
theorem c4_duration_bounds_strict (votes : List ℕ) (sf durMin durMax mdMs : ℚ)
    (evs : List (ℚ × ℚ × ℚ))
    (h : detectEvents votes sf durMin durMax mdMs = some evs) :
    (∀ ev ∈ evs, durMin < ev.2.2 ∧ ev.2.2 < durMax) ∧
    (∀ r ∈ splitRuns (mergedSp votes mdMs sf),
      (runEvent sf r ∈ evs ↔ durMin < runDur sf r ∧ runDur sf r < durMax)) ∧
    (∀ r ∈ splitRuns (mergedSp votes mdMs sf),
      runDur sf r = durMin ∨ runDur sf r = durMax → runEvent sf r ∉ evs) := by
  unfold detectEvents at h
  split at h
  · exact absurd h (by simp)
  · split at h
    · exact absurd h (by simp)
    · injection h with h'
      subst h'
      refine ⟨?_, ?_, ?_⟩
      · intro ev hev
        have := (List.mem_filter.mp hev).2
        simpa using this
      · intro r hr
        unfold goodDurRows
        rw [List.mem_filter]
        constructor
        · intro hm
          simpa using hm.2
        · intro hgood
          exact ⟨List.mem_map_of_mem _ hr, by simpa using hgood⟩
      · intro r hr heq hmem
        unfold goodDurRows at hmem
        have hgood := (List.mem_filter.mp hmem).2
        simp only [decide_eq_true_eq] at hgood
        have : runDur sf r = (runEvent sf r).2.2 := rfl
        rcases heq with heq | heq <;> rw [heq] at this <;>
          rw [← this] at hgood
        · exact lt_irrefl durMin hgood.1
        · exact lt_irrefl durMax hgood.2

/-- C4, witness: the vote sequence [3, 3, 3] at sf = 1 Hz with duration bounds
(1, 3) and merging disabled yields the single run 0..2 of duration 2 s, kept
by the strict filter. -/
theorem c4_duration_bounds_strict_witness :
    (∀ ev ∈ [((0 : ℚ), (2 : ℚ), (2 : ℚ))], (1 : ℚ) < ev.2.2 ∧ ev.2.2 < 3) ∧
    (∀ r ∈ splitRuns (mergedSp [3, 3, 3] 0 1),
      (runEvent 1 r ∈ [((0 : ℚ), (2 : ℚ), (2 : ℚ))] ↔
        (1 : ℚ) < runDur 1 r ∧ runDur 1 r < 3)) ∧
    (∀ r ∈ splitRuns (mergedSp [3, 3, 3] 0 1),
      runDur 1 r = 1 ∨ runDur 1 r = 3 →
        runEvent 1 r ∉ [((0 : ℚ), (2 : ℚ), (2 : ℚ))]) := by
  have hw : whereSp [3, 3, 3] = [0, 1, 2] := by decide
  have hm : mergedSp [3, 3, 3] 0 1 = [0, 1, 2] := by
    unfold mergedSp
    rw [if_neg (by norm_num : ¬ (0 : ℚ) < 0), hw]
  have hs : splitRuns [0, 1, 2] = [[0, 1, 2]] := by decide
  have hrow : runEvent 1 [0, 1, 2] = (0, 2, 2) := by
    have h1 : runStart [0, 1, 2] = 0 := by decide
    have h2 : runEnd [0, 1, 2] = 2 := by decide
    simp only [runEvent, runDur, runEndSec, runStartSec, h1, h2]
    norm_num
  have hgood : goodDurRows [3, 3, 3] 1 1 3 0 = [(0, 2, 2)] := by
    unfold goodDurRows
    rw [hm, hs, List.map_cons, List.map_nil, hrow]
    norm_num
  have h : detectEvents [3, 3, 3] 1 1 3 0 = some [(0, 2, 2)] := by
    unfold detectEvents
    rw [hw, hgood, if_neg (by simp), if_neg (by simp)]
  exact c4_duration_bounds_strict [3, 3, 3] 1 1 3 0 [(0, 2, 2)] h

/-- Truncation toward zero is monotone. -/
theorem truncZ_mono {q1 q2 : ℚ} (h : q1 ≤ q2) : truncZ q1 ≤ truncZ q2 := by
  unfold truncZ
  rcases lt_or_ge q1 0 with h1 | h1 <;> rcases lt_or_ge q2 0 with h2 | h2
  · rw [if_pos h1, if_pos h2]
    exact Int.ceil_mono h
  · rw [if_pos h1, if_neg (not_lt.mpr h2)]
    have hc : ⌈q1⌉ ≤ 0 := by
      have := Int.ceil_mono h1.le
      simpa using this
    have hf : (0 : ℤ) ≤ ⌊q2⌋ := Int.floor_nonneg.mpr h2
    omega
  · linarith
  · rw [if_neg (not_lt.mpr h1), if_neg (not_lt.mpr h2)]
    exact Int.floor_mono h

/-- On nonnegative arguments, truncation toward zero is the floor. -/
theorem truncZ_of_nonneg {q : ℚ} (h : 0 ≤ q) : truncZ q = ⌊q⌋ :=
  if_neg (not_lt.mpr h)

/-- A map of a monotone function over List.range is a nondecreasing list. -/
theorem chain'_le_map_range {m : ℕ} {g : ℕ → ℚ}
    (hg : ∀ i j : ℕ, i ≤ j → g i ≤ g j) :
    ((List.range m).map g).Chain' (· ≤ ·) := by
  rw [List.chain'_map, List.chain'_iff_get]
  intro i h
  simp only [List.get_eq_getElem, List.getElem_range]
  exact hg i (i + 1) (by omega)

/-- C8: for every signal, sampling rate and window, and every positive step,
the non-interpolated moving_transform produces one output value per element of
idx = arange(0, n/sf, step) (the step-spaced centers across the signal
duration), and its returned time vector t = (end + beg)/2/sf is
non-decreasing. -/
theorem c8_moving_transform_shape (x : List ℚ) (sf window step : ℚ)
    (func : List ℚ → ℚ) (hsf : 0 < sf) (hstep : 0 < step) :
    (movingTransform x sf window step func).2.length =
      (arange 0 ((x.length : ℚ) / sf) step).length ∧
    (movingTransform x sf window step func).1.Chain' (· ≤ ·) := by
  have hne : ¬ step = 0 := hstep.ne'
  constructor
  · simp only [movingTransform, if_neg hne, List.length_map, List.length_zip,
      Nat.min_self]
  · simp only [movingTransform, if_neg hne, List.zip_map', List.map_map, arange]
    apply chain'_le_map_range
    intro i j hij
    simp only [Function.comp]
    have hcc : (0 : ℚ) + (i : ℚ) * step ≤ 0 + (j : ℚ) * step := by
      have hij' : (i : ℚ) ≤ (j : ℚ) := by exact_mod_cast hij
      nlinarith
    have hb : max 0 (truncZ ((0 + (i : ℚ) * step - window / 2) * sf)) ≤
        max 0 (truncZ ((0 + (j : ℚ) * step - window / 2) * sf)) :=
      max_le_max le_rfl (truncZ_mono (by nlinarith))
    have he : min ((x.length : ℤ) - 1)
          (truncZ ((0 + (i : ℚ) * step + window / 2) * sf)) ≤
        min ((x.length : ℤ) - 1)
          (truncZ ((0 + (j : ℚ) * step + window / 2) * sf)) :=
      min_le_min le_rfl (truncZ_mono (by nlinarith))
    apply (div_le_div_iff_of_pos_right hsf).mpr
    apply (div_le_div_iff_of_pos_right (by norm_num : (0 : ℚ) < 2)).mpr
    exact_mod_cast Int.add_le_add he hb

/-- C8, witness: the shape statement evaluated on a 2-sample signal at 1 Hz
with a 1 s window and a 1 s step. -/
theorem c8_moving_transform_shape_witness :
    (movingTransform [1, 2] 1 1 1 listMean).2.length =
      (arange 0 ((([1, 2] : List ℚ).length : ℚ) / 1) 1).length ∧
    (movingTransform [1, 2] 1 1 1 listMean).1.Chain' (· ≤ ·) :=
  c8_moving_transform_shape [1, 2] 1 1 1 listMean (by norm_num) (by norm_num)

/-- Characterization of the truncated float arange with step 1 and a
nonnegative start, as used by _index_to_events: the covered integers are the
interval of length arangeLen starting at the floor of the start. -/
theorem mem_truncZ_arange {a b : ℚ} {i : ℤ} (ha : 0 ≤ a) :
    i ∈ (arange a b 1).map truncZ ↔
      ⌊a⌋ ≤ i ∧ i < ⌊a⌋ + (arangeLen a b 1 : ℤ) := by
  unfold arange
  rw [List.map_map]
  constructor
  · intro hi
    rcases List.mem_map.mp hi with ⟨k, hk, rfl⟩
    rw [List.mem_range] at hk
    simp only [Function.comp]
    have hkf : truncZ (a + (k : ℚ) * 1) = ⌊a⌋ + k := by
      have hk0 : (0 : ℚ) ≤ (k : ℚ) * 1 := by positivity
      rw [mul_one, truncZ_of_nonneg (by linarith), Int.floor_add_nat]
    rw [hkf]
    omega
  · rintro ⟨h1, h2⟩
    refine List.mem_map.mpr ⟨(i - ⌊a⌋).toNat, List.mem_range.mpr (by omega), ?_⟩
    simp only [Function.comp]
    have hk0 : (0 : ℚ) ≤ ((i - ⌊a⌋).toNat : ℚ) * 1 := by positivity
    rw [mul_one, truncZ_of_nonneg (by linarith), Int.floor_add_nat]
    omega

/-- C9, counterexample: with sf = 10 and the event (Start, End) =
(0.27, 0.5) s, sample 2 is marked in the mask although
round(Start * sf) = round(2.7) = 3, so the marked set is not
[round(start * sf), round(end * sf)]: the code truncates the float arange
rather than rounding. -/
theorem c9_counterexample :
    (getBoolVector 10 10 [(27 / 100, 1 / 2)])[2]? = some 1 ∧
    round ((27 : ℚ) / 100 * 10) = 3 := by
  constructor
  · have hmem : ((2 : ℕ) : ℤ) ∈ indexToEvents
        ([((27 : ℚ) / 100, (1 : ℚ) / 2)].map fun p => (p.1 * 10, p.2 * 10)) := by
      unfold indexToEvents
      rw [List.map_flatMap, List.mem_flatMap]
      refine ⟨((27 : ℚ) / 100 * 10, (1 : ℚ) / 2 * 10), by simp, ?_⟩
      apply (mem_truncZ_arange (by norm_num)).mpr
      constructor
      · norm_num
      · norm_num [arangeLen]
    unfold getBoolVector
    rw [List.getElem?_map, List.getElem?_range (by norm_num : (2 : ℕ) < 10)]
    simp only [Option.map_some']
    rw [Option.some_inj, if_pos hmem]
  · rw [round_eq]
    norm_num

/-- C9, amended: the mask built by get_bool_vector has the length of the
signal, and (for events with nonnegative start times and start ≤ end, all
in range) sample i is marked 1 exactly when, for some event,
floor(start * sf) ≤ i < floor(start * sf) + ceil(end * sf + 1 - start * sf):
the covered range starts at the floor (not the round) of start * sf and its
length is the float-arange element count; when start * sf and end * sf are
integers this is the inclusive range [start * sf, end * sf]. -/
theorem c9_mask_floor_semantics (n : ℕ) (sf : ℚ) (sp : List (ℚ × ℚ)) (i : ℕ)
    (hsf : 0 ≤ sf) (hsp : ∀ p ∈ sp, 0 ≤ p.1 ∧ p.1 ≤ p.2) (hi : i < n) :
    (getBoolVector n sf sp).length = n ∧
    ((getBoolVector n sf sp)[i]? = some 1 ↔
      ∃ p ∈ sp, ⌊p.1 * sf⌋ ≤ (i : ℤ) ∧
        (i : ℤ) < ⌊p.1 * sf⌋ + ⌈p.2 * sf + 1 - p.1 * sf⌉) := by
  have hL : ∀ p ∈ sp, ((arangeLen (p.1 * sf) (p.2 * sf + 1) 1 : ℕ) : ℤ) =
      ⌈p.2 * sf + 1 - p.1 * sf⌉ := by
    intro p hp
    have hmul : p.1 * sf ≤ p.2 * sf :=
      mul_le_mul_of_nonneg_right (hsp p hp).2 hsf
    have hpos : (0 : ℤ) < ⌈p.2 * sf + 1 - p.1 * sf⌉ :=
      Int.ceil_pos.mpr (by linarith)
    unfold arangeLen
    rw [div_one]
    omega
  have hiff : (i : ℤ) ∈ indexToEvents (sp.map fun p => (p.1 * sf, p.2 * sf)) ↔
      ∃ p ∈ sp, ⌊p.1 * sf⌋ ≤ (i : ℤ) ∧
        (i : ℤ) < ⌊p.1 * sf⌋ + ⌈p.2 * sf + 1 - p.1 * sf⌉ := by
    unfold indexToEvents
    rw [List.map_flatMap, List.mem_flatMap]
    constructor
    · rintro ⟨row, hrow, hmem⟩
      rcases List.mem_map.mp hrow with ⟨p, hp, rfl⟩
      have h0 : 0 ≤ p.1 * sf := mul_nonneg (hsp p hp).1 hsf
      rcases (mem_truncZ_arange h0).mp hmem with ⟨hb1, hb2⟩
      refine ⟨p, hp, hb1, ?_⟩
      rw [← hL p hp]
      exact hb2
    · rintro ⟨p, hp, hb1, hb2⟩
      refine ⟨(p.1 * sf, p.2 * sf), List.mem_map_of_mem _ hp, ?_⟩
      have h0 : 0 ≤ p.1 * sf := mul_nonneg (hsp p hp).1 hsf
      apply (mem_truncZ_arange h0).mpr
      refine ⟨hb1, ?_⟩
      rw [hL p hp]
      exact hb2
  constructor
  · simp [getBoolVector]
  · unfold getBoolVector
    rw [List.getElem?_map, List.getElem?_range hi]
    simp only [Option.map_some']
    rw [Option.some_inj]
    constructor
    · intro h1
      by_cases hmem : (i : ℤ) ∈ indexToEvents (sp.map fun p => (p.1 * sf, p.2 * sf))
      · exact hiff.mp hmem
      · rw [if_neg hmem] at h1
        exact absurd h1 (by norm_num)
    · intro hex
      rw [if_pos (hiff.mpr hex)]

/-- C9, witness: the amended mask semantics evaluated at sf = 10, the event
(0.27, 0.5) s and sample 2. -/
theorem c9_mask_floor_semantics_witness :
    (getBoolVector 10 10 [(27 / 100, 1 / 2)]).length = 10 ∧
    ((getBoolVector 10 10 [(27 / 100, 1 / 2)])[2]? = some 1 ↔
      ∃ p ∈ [((27 : ℚ) / 100, (1 : ℚ) / 2)], ⌊p.1 * 10⌋ ≤ ((2 : ℕ) : ℤ) ∧
        ((2 : ℕ) : ℤ) < ⌊p.1 * 10⌋ + ⌈p.2 * 10 + 1 - p.1 * 10⌉) :=
  c9_mask_floor_semantics 10 10 [(27 / 100, 1 / 2)] 2 (by norm_num)
    (by
      rintro p hp
      rcases List.mem_singleton.mp hp with rfl
      norm_num)
    (by norm_num)

end Yasa
